import Mathlib

/-!
Shallow embedding of the LSP home-selection evaluator.

Source files embedded here:
* `aggregators.py` — the UGCD continuous aggregator family
  (`UGCDAggregator.ugcd`) and the two partial-absorption aggregators
  (`ConjunctivePartialAbsorption.evaluate`, `DisjunctivePartialAbsorption.evaluate`).
* `attribute_tree.py` — `AggregationTreeNode.add_child` and
  `AggregationTreeNode.evaluate` (leaf lookup, missingness-tolerance loop,
  neutral-placeholder substitution, weight normalization).

Modelling conventions:
* Python floats are modelled as real numbers; the two places where IEEE
  infinity semantics are observable (`0.0 ** r = inf` for `r < 0` and
  `inf ** s = 0.0` for `s < 0`, both arising inside the weighted power
  mean) are routed through `ENNReal`, whose `rpow` has exactly those
  conventions (`zero_rpow_of_neg`, `top_rpow_of_neg`).
* Fallible Python code (assert, raise, KeyError, ZeroDivisionError) is
  modelled with `Except String`.
* `pandas.DataFrame` input access is modelled as
  `String → Option (Option ℝ)`: `none` = column absent (a lookup raises
  `KeyError`), `some none` = NaN cell (`pd.isna` is true),
  `some (some v)` = a present value `v`.
-/

open scoped ENNReal

namespace LSPHome

open Classical

/-- numpy.isclose with its default tolerances `rtol = 1e-5`, `atol = 1e-8`:
`|a - b| <= atol + rtol * |b|`. Used by the weight assertion in
`UGCDAggregator.ugcd`. -/
def npIsClose (a b : ℝ) : Prop := |a - b| ≤ 1e-8 + 1e-5 * |b|

/-- `np.min` over a list of reals (source: `np.min(values)`), as the fold of
`min` over the list. numpy raises on an empty array; the claims never reach
that case (the weight assertion fails first on empty input), so the empty
case returns the junk value 0. -/
noncomputable def listMin : List ℝ → ℝ
  | [] => 0
  | x :: xs => xs.foldl min x

/-- `np.max` over a list of reals, same conventions as `listMin`. -/
noncomputable def listMax : List ℝ → ℝ
  | [] => 0
  | x :: xs => xs.foldl max x

/-- The nested-polynomial exponent `r2(alpha)` from `UGCDAggregator.ugcd`:
`beta = 0.5 - alpha`, then
`(0.25 + beta*(1.65811 + beta*(2.15388 + beta*(8.2844 + 6.16764*beta)))) / (alpha*(1-alpha))`. -/
noncomputable def r2 (alpha : ℝ) : ℝ :=
  (0.25 + (0.5 - alpha) * (1.65811 + (0.5 - alpha) * (2.15388 + (0.5 - alpha) *
      (8.2844 + 6.16764 * (0.5 - alpha))))) / (alpha * (1 - alpha))

/-- The fixed exponent `R = 0.7201` from `UGCDAggregator.ugcd`. -/
noncomputable def R : ℝ := 0.7201

/-- The weighted power-mean kernel
`np.sum(weights * (values ** r)) ** (1 / r)` from `UGCDAggregator.ugcd`
(it occurs twice there, with `r = r2(alpha)` and with `r = R`).
The computation is routed through `ENNReal` so that the IEEE float
behaviour at the singular points is preserved: numpy evaluates
`0.0 ** r = inf` for `r < 0` and `inf ** s = 0.0` for `s < 0`, which are
exactly the `ENNReal.rpow` conventions. On strictly positive finite data
this coincides with the ordinary real computation. -/
noncomputable def powSumRoot (r : ℝ) (values weights : List ℝ) : ℝ :=
  (((List.zipWith (fun w v => ENNReal.ofReal w * ENNReal.ofReal v ^ r) weights values).sum)
      ^ (1 / r)).toReal

/-- `np.sum(weights * values)`: the weighted arithmetic sum. -/
noncomputable def weightedSum (values weights : List ℝ) : ℝ :=
  (List.zipWith (fun w v => w * v) weights values).sum

/-- `UGCDAggregator.ugcd(alpha, values, weights)` from `aggregators.py`:
first the assertion `np.isclose(np.sum(weights), 1.0)` (an `AssertionError`
with message "Weights must sum to 1." when it fails), then the branch
cascade on `alpha`:
`alpha == 1` → `np.min(values)`;
`0.75 <= alpha < 1` → weighted power mean with exponent `r2(alpha)`;
`0.5 <= alpha <= 0.75` → `(3-4a)*sum(w*v) + (4a-2)*sum(w*v**R)**(1/R)`;
`0 <= alpha < 0.5` → `1 - ugcd(1-alpha, 1-values, weights)` (recursive call);
otherwise `ValueError("Unsupported value of alpha.")`. -/
noncomputable def ugcd (alpha : ℝ) (values weights : List ℝ) : Except String ℝ :=
  if ¬ npIsClose weights.sum 1 then .error "Weights must sum to 1."
  else if alpha = 1 then .ok (listMin values)
  else if 0.75 ≤ alpha ∧ alpha < 1 then .ok (powSumRoot (r2 alpha) values weights)
  else if 0.5 ≤ alpha ∧ alpha ≤ 0.75 then
    .ok ((3 - 4 * alpha) * weightedSum values weights
        + (4 * alpha - 2) * powSumRoot R values weights)
  else if 0 ≤ alpha ∧ alpha < 0.5 then
    match ugcd (1 - alpha) (values.map (fun v => 1 - v)) weights with
    | .ok y => .ok (1 - y)
    | .error e => .error e
  else .error "Unsupported value of alpha."
termination_by (if alpha < 0.5 then (1 : ℕ) else 0)
decreasing_by
  rename_i _h1 _h2 _h3 h4
  have ha : alpha < 0.5 := h4.2
  have hb : ¬ (1 - alpha < 0.5) := by
    intro hc
    exact absurd h4.1 (by linarith)
  simp only [if_pos ha, if_neg hb]
  exact Nat.zero_lt_one

/-- Python scalar division: `a / b` raises `ZeroDivisionError` when `b = 0`,
otherwise yields the real quotient. -/
noncomputable def pydiv (a b : ℝ) : Except String ℝ :=
  if b = 0 then .error "ZeroDivisionError: float division by zero" else .ok (a / b)

/-- The mixing coefficient `W1` computed in `ConjunctivePartialAbsorption.__init__`:
with `r = R/0.5` and `p = P/0.5`, `W1 = 2*r*(1-p)/(p+r)`. -/
noncomputable def cpaW1 (maxReward maxPenalty : ℝ) : ℝ :=
  2 * (maxReward / 0.5) * (1 - maxPenalty / 0.5) / (maxPenalty / 0.5 + maxReward / 0.5)

/-- The mixing coefficient `W2` computed in `ConjunctivePartialAbsorption.__init__`:
`W2 = (p-r) / (p-r+2*p*r)`. -/
noncomputable def cpaW2 (maxReward maxPenalty : ℝ) : ℝ :=
  (maxPenalty / 0.5 - maxReward / 0.5) /
    (maxPenalty / 0.5 - maxReward / 0.5 + 2 * (maxPenalty / 0.5) * (maxReward / 0.5))

/-- `ConjunctivePartialAbsorption.evaluate` with mixing coefficients `W1`, `W2`
and inputs `x = values[0]` (mandatory), `y = values[1]` (desired):
`part1 = (1-W2)/(W1*x + (1-W1)*y)`, `part2 = W2/x`, result `1/(part1+part2)`,
each division performed with Python scalar semantics. -/
noncomputable def cpaEvaluate (W1 W2 x y : ℝ) : Except String ℝ := do
  let part1 ← pydiv (1 - W2) (W1 * x + (1 - W1) * y)
  let part2 ← pydiv W2 x
  pydiv 1 (part1 + part2)

/-- `DisjunctivePartialAbsorption.evaluate` with mixing coefficients `W1`, `W2`:
`part1 = (1-W2)/(1 - W1*x - (1-W1)*y)`, `part2 = W2/(1-x)`,
result `1 - 1/(part1+part2)`. -/
noncomputable def dpaEvaluate (W1 W2 x y : ℝ) : Except String ℝ := do
  let part1 ← pydiv (1 - W2) (1 - W1 * x - (1 - W1) * y)
  let part2 ← pydiv W2 (1 - x)
  let q ← pydiv 1 (part1 + part2)
  .ok (1 - q)

/-- The payload of an `AggregationTreeNode` (`self.element` in
`attribute_tree.py`): either an `ElementaryCriterion` (identified by its
`name`, with its scoring function `evaluate` — criteria are external
collaborators, so the scoring function is an opaque parameter), or an
`Aggregator` (identified by its `evaluate(values, weights)` behaviour). -/
inductive Element : Type where
  | criterion (name : String) (score : ℝ → ℝ) : Element
  | aggregator (eval : List ℝ → List ℝ → Except String ℝ) : Element

/-- `AggregationTreeNode`: a payload plus the parallel lists
`self.children` / `self.weights`, fused here into one list of
(child, weight) pairs — the evaluation loop zips them and `add_child`
appends to both in lockstep, so they always have equal length.
The bookkeeping fields `node_id` and `name` are not used by any claim
and are omitted. -/
inductive TreeNode : Type where
  | mk (element : Element) (children : List (TreeNode × ℝ)) : TreeNode

/-- The payload of a node. -/
def TreeNode.element : TreeNode → Element
  | .mk e _ => e

/-- The (child, weight) pairs of a node. -/
def TreeNode.children : TreeNode → List (TreeNode × ℝ)
  | .mk _ c => c

/-- Models Python's `isinstance(self, ElementaryCriterion)` inside
`AggregationTreeNode.add_child`: `self` there is an `AggregationTreeNode`
instance, and `AggregationTreeNode` is not a subclass of
`ElementaryCriterion`, so the test is `False` for every node — including
leaves, whose `element` (not `self`) is the criterion. -/
def selfIsElementaryCriterion (_self : TreeNode) : Bool := false

/-- `AggregationTreeNode.add_child(element, weight, name)`: the guard
`assert not isinstance(self, ElementaryCriterion)` (an `AssertionError`
when it fails), then a new node wrapping `element` with empty children is
appended to `self.children` with `weight` appended to `self.weights`.
The `TypeError` branch for a payload that is neither an
`ElementaryCriterion` nor an `Aggregator` is unreachable here because
`Element` is a closed sum of exactly those two; the id/name bookkeeping
and the return-value distinction are not used by any claim. -/
def addChild (self : TreeNode) (element : Element) (weight : ℝ) : Except String TreeNode :=
  if selfIsElementaryCriterion self then .error "AssertionError"
  else .ok (.mk self.element (self.children ++ [(.mk element [], weight)]))

/-- Evaluation inputs: the single-row `pandas.DataFrame`.
`inputs name = none` models an absent column (so `inputs[name]` raises
`KeyError`), `some none` a NaN cell (`pd.isna(value)` true), and
`some (some v)` the present raw value `v`. -/
def Inputs : Type := String → Option (Option ℝ)

/-- The `if None in child_values` membership test, structurally (Python
uses identity/equality on list members; `None` matches exactly the `None`
entries). -/
def hasNone : List (Option ℝ) → Bool
  | [] => false
  | none :: _ => true
  | some _ :: rest => hasNone rest

/-- Lines 74–77 of `attribute_tree.py`: if any placeholder (`None`) is
present in `child_values`, the non-`None` entries form `valid_values`,
`mean_value = np.mean(valid_values) if valid_values else 0`, and every
`None` is replaced by `mean_value`; otherwise the list is unchanged (all
entries are plain scores, extracted here with a default that is never
used). -/
noncomputable def substituteNeutral (vals : List (Option ℝ)) : List ℝ :=
  if hasNone vals then
    let valid := vals.filterMap id
    let meanValue := if valid.isEmpty then 0 else valid.sum / (valid.length : ℝ)
    vals.map (fun v => v.getD meanValue)
  else vals.map (fun v => v.getD 0)

/-- Lines 80–84 of `attribute_tree.py`: `weight_sum = sum(updated_weights)`;
if `weight_sum != 1` each weight is divided by `weight_sum`, otherwise the
weights are kept as they are. -/
noncomputable def normalizeWeights (ws : List ℝ) : List ℝ :=
  if ws.sum ≠ 1 then ws.map (fun w => w / ws.sum) else ws

mutual

/-- `AggregationTreeNode.evaluate(inputs)` from `attribute_tree.py`.
Leaf (`element` an `ElementaryCriterion`): look the criterion name up in
`inputs` (`KeyError` when the column is absent), return `None` (missing)
when the cell is NaN, otherwise delegate to the criterion's scoring
function. Internal (`element` an `Aggregator`): run the
missingness-tolerance loop over the (child, weight) pairs
(`gatherChildren`), substitute the neutral placeholders, normalize the
surviving weights, and invoke the aggregator. -/
noncomputable def evalNode : TreeNode → Inputs → Except String (Option ℝ)
  | .mk (.criterion name score) _children, inputs =>
    match inputs name with
    | none => .error ("KeyError: " ++ name)
    | some none => .ok none
    | some (some v) => .ok (some (score v))
  | .mk (.aggregator f) children, inputs => do
    let gathered ← gatherChildren children inputs
    match f (substituteNeutral gathered.1) (normalizeWeights gathered.2) with
    | .ok result => .ok (some result)
    | .error e => .error e

/-- The `for child, weight in zip(self.children, self.weights)` loop of
`AggregationTreeNode.evaluate` (lines 44–71): each child is evaluated; a
missing child (`None`) gets `calculated_tolerance = 1 - 2*weight` and is
classified — `< 0.25`: substitute score 0 and keep the weight;
`> 0.75`: skip the child and its weight; otherwise: append a `None`
placeholder and keep the weight. A resolved child contributes its score
and weight unchanged. Returns the `(child_values, updated_weights)` pair. -/
noncomputable def gatherChildren :
    List (TreeNode × ℝ) → Inputs → Except String (List (Option ℝ) × List ℝ)
  | [], _ => .ok ([], [])
  | (child, weight) :: rest, inputs => do
    let childValue ← evalNode child inputs
    let tail ← gatherChildren rest inputs
    match childValue with
    | none =>
      if 1 - 2 * weight < 0.25 then .ok (some 0 :: tail.1, weight :: tail.2)
      else if 1 - 2 * weight > 0.75 then .ok (tail.1, tail.2)
      else .ok (none :: tail.1, weight :: tail.2)
    | some v => .ok (some v :: tail.1, weight :: tail.2)

end

/-- The `Element` wrapping of `UGCDAggregator`: `evaluate(values, weights)`
just calls `UGCDAggregator.ugcd(self.fixed_andness, values, weights)`. -/
noncomputable def ugcdAggregator (fixedAndness : ℝ) : Element :=
  .aggregator (fun values weights => ugcd fixedAndness values weights)

/-- The raw child-evaluation results of an internal node, in order, before
any missingness classification: each `(child, weight)` pair contributes
`child.evaluate(inputs)` (this is the evaluation part of the loop in
`AggregationTreeNode.evaluate`, separated from its classification part so
that the loop can be compared against the specification's description of
the classification). -/
noncomputable def childResults : List (TreeNode × ℝ) → Inputs → Except String (List (Option ℝ))
  | [], _ => .ok []
  | (child, _) :: rest, inputs => do
    let v ← evalNode child inputs
    let vs ← childResults rest inputs
    .ok (v :: vs)

/-- Modelled from the spec: the per-child missingness classification as the
specification words it — for a missing child compute
`calculated = 1 - 2w`; `calculated < 0.25`: substitute score 0 and keep the
weight; `0.25 ≤ calculated ≤ 0.75`: keep a placeholder (`none`) and the
weight, to be replaced by the sibling mean later; `calculated > 0.75`:
exclude the child and its weight entirely. A resolved child keeps its
score and weight. -/
noncomputable def specClassify : List (Option ℝ) → List ℝ → List (Option ℝ) × List ℝ
  | none :: vs, w :: ws =>
    let rest := specClassify vs ws
    if 1 - 2 * w < 0.25 then (some 0 :: rest.1, w :: rest.2)
    else if 1 - 2 * w ≤ 0.75 then (none :: rest.1, w :: rest.2)
    else rest
  | some v :: vs, w :: ws =>
    let rest := specClassify vs ws
    (some v :: rest.1, w :: rest.2)
  | _, _ => ([], [])

/-- Modelled from the spec: the substitution value for neutral placeholders —
the arithmetic mean of the non-placeholder scores, or 0 when no
non-placeholder score exists. -/
noncomputable def specMean (vals : List (Option ℝ)) : ℝ :=
  if (vals.filterMap id).isEmpty then 0
  else (vals.filterMap id).sum / ((vals.filterMap id).length : ℝ)

/-- Modelled from the spec: every placeholder is replaced (once per node) by
the mean of the non-placeholder scores. -/
noncomputable def specSubstitute (vals : List (Option ℝ)) : List ℝ :=
  vals.map (fun v => v.getD (specMean vals))

/-- Modelled from the spec: the surviving weights are renormalized to sum
to 1 by dividing each by their sum. -/
noncomputable def specNormalize (ws : List ℝ) : List ℝ :=
  ws.map (fun w => w / ws.sum)

/-! ### Helper lemmas -/

lemma npIsClose_self_one : npIsClose 1 1 := by norm_num [npIsClose]

lemma not_npIsClose_zero_one : ¬ npIsClose 0 1 := by norm_num [npIsClose]

lemma zip_pow_sum_le (g : ℝ → ℝ≥0∞) :
    ∀ (ws vs : List ℝ), ws.length = vs.length →
      (∀ v ∈ vs, g v ≤ 1) → (∀ w ∈ ws, 0 ≤ w) →
      (List.zipWith (fun w v => ENNReal.ofReal w * g v) ws vs).sum ≤ ENNReal.ofReal ws.sum
  | [], [], _, _, _ => by simp
  | [], _ :: _, h, _, _ => by simp at h
  | _ :: _, [], h, _, _ => by simp at h
  | w :: ws, v :: vs, h, hv, hw => by
    simp only [List.zipWith_cons_cons, List.sum_cons]
    rw [ENNReal.ofReal_add (hw w (by simp))
      (List.sum_nonneg (fun x hx => hw x (by simp [hx])))]
    have h1 : ENNReal.ofReal w * g v ≤ ENNReal.ofReal w := by
      calc ENNReal.ofReal w * g v ≤ ENNReal.ofReal w * 1 :=
            mul_le_mul_left' (hv v (by simp)) _
        _ = ENNReal.ofReal w := mul_one _
    have h2 := zip_pow_sum_le g ws vs (by simpa using h)
      (fun x hx => hv x (by simp [hx])) (fun x hx => hw x (by simp [hx]))
    exact add_le_add h1 h2

lemma zip_pow_sum_ge (g : ℝ → ℝ≥0∞) :
    ∀ (ws vs : List ℝ), ws.length = vs.length →
      (∀ v ∈ vs, 1 ≤ g v) → (∀ w ∈ ws, 0 ≤ w) →
      ENNReal.ofReal ws.sum ≤ (List.zipWith (fun w v => ENNReal.ofReal w * g v) ws vs).sum
  | [], [], _, _, _ => by simp
  | [], _ :: _, h, _, _ => by simp at h
  | _ :: _, [], h, _, _ => by simp at h
  | w :: ws, v :: vs, h, hv, hw => by
    simp only [List.zipWith_cons_cons, List.sum_cons]
    rw [ENNReal.ofReal_add (hw w (by simp))
      (List.sum_nonneg (fun x hx => hw x (by simp [hx])))]
    have h1 : ENNReal.ofReal w ≤ ENNReal.ofReal w * g v := by
      calc ENNReal.ofReal w = ENNReal.ofReal w * 1 := (mul_one _).symm
        _ ≤ ENNReal.ofReal w * g v := mul_le_mul_left' (hv v (by simp)) _
    have h2 := zip_pow_sum_ge g ws vs (by simpa using h)
      (fun x hx => hv x (by simp [hx])) (fun x hx => hw x (by simp [hx]))
    exact add_le_add h1 h2

lemma powSumRoot_nonneg (r : ℝ) (values weights : List ℝ) :
    0 ≤ powSumRoot r values weights := ENNReal.toReal_nonneg

lemma powSumRoot_le_one (r : ℝ) (values weights : List ℝ)
    (hlen : weights.length = values.length)
    (hv : ∀ v ∈ values, 0 ≤ v ∧ v ≤ 1) (hw : ∀ w ∈ weights, 0 ≤ w)
    (hsum : weights.sum = 1) : powSumRoot r values weights ≤ 1 := by
  unfold powSumRoot
  rcases lt_trichotomy r 0 with hr | hr | hr
  · -- negative exponent: every term is at least 1, the sum is at least 1,
    -- and a base at least 1 raised to the negative exponent 1/r is at most 1.
    have hge : ENNReal.ofReal weights.sum ≤
        (List.zipWith (fun w v => ENNReal.ofReal w * ENNReal.ofReal v ^ r) weights values).sum := by
      apply zip_pow_sum_ge (fun v => ENNReal.ofReal v ^ r) weights values hlen _ hw
      intro v hvmem
      have hle1 : ENNReal.ofReal v ≤ 1 := ENNReal.ofReal_le_one.mpr (hv v hvmem).2
      calc (1 : ℝ≥0∞) = ENNReal.ofReal v ^ (0 : ℝ) := ENNReal.rpow_zero.symm
        _ ≤ ENNReal.ofReal v ^ r := ENNReal.rpow_le_rpow_of_exponent_ge hle1 hr.le
    rw [hsum] at hge
    simp only [ENNReal.ofReal_one] at hge
    have hroot : (List.zipWith (fun w v => ENNReal.ofReal w * ENNReal.ofReal v ^ r)
        weights values).sum ^ (1 / r) ≤ 1 :=
      ENNReal.rpow_le_one_of_one_le_of_neg hge (by simpa using one_div_neg.mpr hr)
    calc _ ≤ (1 : ℝ≥0∞).toReal := ENNReal.toReal_mono (by simp) hroot
      _ = 1 := by simp
  · -- zero exponent: 1 / 0 = 0 and x ^ 0 = 1.
    subst hr
    simp [ENNReal.rpow_zero]
  · -- positive exponent: every term is at most the weight, the sum is at
    -- most 1, and a base at most 1 raised to the nonnegative 1/r stays at most 1.
    have hle : (List.zipWith (fun w v => ENNReal.ofReal w * ENNReal.ofReal v ^ r)
        weights values).sum ≤ ENNReal.ofReal weights.sum := by
      apply zip_pow_sum_le (fun v => ENNReal.ofReal v ^ r) weights values hlen _ hw
      intro v hvmem
      exact ENNReal.rpow_le_one (ENNReal.ofReal_le_one.mpr (hv v hvmem).2) hr.le
    rw [hsum] at hle
    simp only [ENNReal.ofReal_one] at hle
    have hroot : (List.zipWith (fun w v => ENNReal.ofReal w * ENNReal.ofReal v ^ r)
        weights values).sum ^ (1 / r) ≤ 1 :=
      ENNReal.rpow_le_one hle (by positivity)
    calc _ ≤ (1 : ℝ≥0∞).toReal := ENNReal.toReal_mono (by simp) hroot
      _ = 1 := by simp

lemma zip_mul_sum_bounds :
    ∀ (ws vs : List ℝ), ws.length = vs.length →
      (∀ v ∈ vs, 0 ≤ v ∧ v ≤ 1) → (∀ w ∈ ws, 0 ≤ w) →
      0 ≤ (List.zipWith (fun w v => w * v) ws vs).sum ∧
        (List.zipWith (fun w v => w * v) ws vs).sum ≤ ws.sum
  | [], [], _, _, _ => by simp
  | [], _ :: _, h, _, _ => by simp at h
  | _ :: _, [], h, _, _ => by simp at h
  | w :: ws, v :: vs, h, hv, hw => by
    obtain ⟨ih1, ih2⟩ := zip_mul_sum_bounds ws vs (by simpa using h)
      (fun x hx => hv x (by simp [hx])) (fun x hx => hw x (by simp [hx]))
    have hw0 : 0 ≤ w := hw w (by simp)
    have hv0 : 0 ≤ v := (hv v (by simp)).1
    have hv1 : v ≤ 1 := (hv v (by simp)).2
    simp only [List.zipWith_cons_cons, List.sum_cons]
    constructor
    · have : 0 ≤ w * v := mul_nonneg hw0 hv0
      linarith
    · have : w * v ≤ w := by nlinarith
      linarith

lemma weightedSum_bounds (values weights : List ℝ)
    (hlen : weights.length = values.length)
    (hv : ∀ v ∈ values, 0 ≤ v ∧ v ≤ 1) (hw : ∀ w ∈ weights, 0 ≤ w)
    (hsum : weights.sum = 1) :
    0 ≤ weightedSum values weights ∧ weightedSum values weights ≤ 1 := by
  have := zip_mul_sum_bounds weights values hlen hv hw
  rw [hsum] at this
  exact this

lemma foldl_min_bounds :
    ∀ (xs : List ℝ) (a : ℝ), 0 ≤ a → a ≤ 1 → (∀ v ∈ xs, 0 ≤ v ∧ v ≤ 1) →
      0 ≤ xs.foldl min a ∧ xs.foldl min a ≤ 1
  | [], a, h0, h1, _ => by simpa using ⟨h0, h1⟩
  | x :: xs, a, h0, h1, hx => by
    have hx0 := (hx x (by simp)).1
    have hx1 := (hx x (by simp)).2
    exact foldl_min_bounds xs (min a x) (le_min h0 hx0) (min_le_of_left_le h1)
      (fun v hv => hx v (by simp [hv]))

lemma listMin_bounds (l : List ℝ) (hne : l ≠ [])
    (hl : ∀ v ∈ l, 0 ≤ v ∧ v ≤ 1) : 0 ≤ listMin l ∧ listMin l ≤ 1 := by
  match l with
  | [] => exact absurd rfl hne
  | x :: xs =>
    exact foldl_min_bounds xs x (hl x (by simp)).1 (hl x (by simp)).2
      (fun v hv => hl v (by simp [hv]))

lemma foldl_min_complement :
    ∀ (xs : List ℝ) (a : ℝ),
      (xs.map (fun v => 1 - v)).foldl min (1 - a) = 1 - xs.foldl max a
  | [], _ => by simp
  | x :: xs, a => by
    simp only [List.map_cons, List.foldl_cons]
    rw [min_sub_sub_left, foldl_min_complement xs (max a x)]

lemma listMin_map_complement (l : List ℝ) :
    l ≠ [] → listMin (l.map (fun v => 1 - v)) = 1 - listMax l := by
  intro hne
  match l with
  | [] => exact absurd rfl hne
  | x :: xs =>
    simp only [List.map_cons, listMin, listMax]
    exact foldl_min_complement xs x

lemma npIsClose_of_sum_one {s : ℝ} (h : s = 1) : npIsClose s 1 := by
  subst h
  norm_num [npIsClose]

/-- After the weight assertion passes, every `alpha` in `[0.5, 1]` lands in
a non-recursive branch and returns a plain value. -/
lemma ugcd_high_ok (alpha : ℝ) (values weights : List ℝ)
    (hclose : npIsClose weights.sum 1) (h05 : 0.5 ≤ alpha) (h1 : alpha ≤ 1) :
    ∃ y, ugcd alpha values weights = .ok y := by
  rw [ugcd]
  rw [if_neg (by simpa using hclose)]
  by_cases he : alpha = 1
  · rw [if_pos he]
    exact ⟨_, rfl⟩
  · rw [if_neg he]
    have hlt : alpha < 1 := lt_of_le_of_ne h1 he
    by_cases h75 : 0.75 ≤ alpha
    · rw [if_pos ⟨h75, hlt⟩]
      exact ⟨_, rfl⟩
    · rw [if_neg (by tauto), if_pos ⟨h05, by linarith⟩]
      exact ⟨_, rfl⟩

/-- After the weight assertion passes, every `alpha` in `[0.5, 1]` returns a
value in `[0, 1]` provided the scores lie in `[0, 1]` and the weights are
nonnegative and sum to 1. -/
lemma ugcd_high_bounds (alpha : ℝ) (values weights : List ℝ)
    (h05 : 0.5 ≤ alpha) (h1 : alpha ≤ 1)
    (hne : values ≠ []) (hlen : weights.length = values.length)
    (hv : ∀ v ∈ values, 0 ≤ v ∧ v ≤ 1) (hw : ∀ w ∈ weights, 0 ≤ w)
    (hsum : weights.sum = 1) :
    ∃ y, ugcd alpha values weights = .ok y ∧ 0 ≤ y ∧ y ≤ 1 := by
  rw [ugcd]
  rw [if_neg (by simpa using npIsClose_of_sum_one hsum)]
  by_cases he : alpha = 1
  · rw [if_pos he]
    exact ⟨_, rfl, listMin_bounds values hne hv⟩
  · rw [if_neg he]
    have hlt : alpha < 1 := lt_of_le_of_ne h1 he
    by_cases h75 : 0.75 ≤ alpha
    · rw [if_pos ⟨h75, hlt⟩]
      exact ⟨_, rfl, powSumRoot_nonneg _ _ _,
        powSumRoot_le_one _ _ _ hlen hv hw hsum⟩
    · rw [if_neg (by tauto), if_pos ⟨h05, by linarith⟩]
      refine ⟨_, rfl, ?_, ?_⟩
      · obtain ⟨hm0, _⟩ := weightedSum_bounds values weights hlen hv hw hsum
        have hp0 := powSumRoot_nonneg R values weights
        have hc1 : (0 : ℝ) ≤ 3 - 4 * alpha := by linarith
        have hc2 : (0 : ℝ) ≤ 4 * alpha - 2 := by linarith
        nlinarith
      · obtain ⟨hm0, hm1⟩ := weightedSum_bounds values weights hlen hv hw hsum
        have hp0 := powSumRoot_nonneg R values weights
        have hp1 := powSumRoot_le_one R values weights hlen hv hw hsum
        have hc1 : (0 : ℝ) ≤ 3 - 4 * alpha := by linarith
        have hc2 : (0 : ℝ) ≤ 4 * alpha - 2 := by linarith
        nlinarith

/-- With empty score and weight lists the weight assertion of
`UGCDAggregator.ugcd` fails (the sum 0 is not close to 1), for every
andness. -/
lemma ugcd_empty (alpha : ℝ) : ugcd alpha [] [] = .error "Weights must sum to 1." := by
  rw [ugcd]
  norm_num [npIsClose]

lemma hasNone_eq_false_iff :
    ∀ (vals : List (Option ℝ)), hasNone vals = false ↔ ∀ v ∈ vals, v ≠ none
  | [] => by simp [hasNone]
  | none :: rest => by simp [hasNone]
  | some v :: rest => by
    simp [hasNone, hasNone_eq_false_iff rest]

/-- The source substitution pass (with its `if None in child_values` guard)
agrees with the specification's unguarded description: when no placeholder
is present, replacing the never-occurring placeholders is the identity
whatever the substitution value. -/
lemma substituteNeutral_eq_spec (vals : List (Option ℝ)) :
    substituteNeutral vals = specSubstitute vals := by
  unfold substituteNeutral specSubstitute specMean
  by_cases h : hasNone vals
  · rw [if_pos h]
  · rw [if_neg h]
    have hall := (hasNone_eq_false_iff vals).mp (by simpa using h)
    apply List.map_congr_left
    intro v hvmem
    match v with
    | none => exact absurd rfl (hall none hvmem)
    | some x => rfl

/-- The source normalization (which skips the division when the sum is
already 1) agrees with the specification's unconditional division by the
sum. -/
lemma normalizeWeights_eq_spec (ws : List ℝ) :
    normalizeWeights ws = specNormalize ws := by
  unfold normalizeWeights specNormalize
  by_cases h : ws.sum = 1
  · rw [if_neg (by simpa using h), h]
    simp
  · rw [if_pos h]

lemma substituteNeutral_nil : substituteNeutral [] = [] := by
  simp [substituteNeutral, hasNone]

lemma normalizeWeights_nil : normalizeWeights [] = [] := by
  norm_num [normalizeWeights]

/-- The fused evaluation-and-classification loop of
`AggregationTreeNode.evaluate` equals evaluating all children first
(`childResults`) and then applying the specification's classification
(`specClassify`) to the results and the configured weights. -/
lemma gatherChildren_eq_spec :
    ∀ (pairs : List (TreeNode × ℝ)) (inputs : Inputs),
      gatherChildren pairs inputs =
        match childResults pairs inputs with
        | .ok rs => .ok (specClassify rs (pairs.map Prod.snd))
        | .error e => .error e
  | [], inputs => by simp [gatherChildren, childResults, specClassify]
  | (child, weight) :: rest, inputs => by
    rw [gatherChildren, childResults]
    cases hcv : evalNode child inputs with
    | error e => simp [Bind.bind, Except.bind]
    | ok cv =>
      simp only [Bind.bind, Except.bind]
      rw [gatherChildren_eq_spec rest inputs]
      cases hcr : childResults rest inputs with
      | error e => rfl
      | ok rs =>
        match cv with
        | some v => simp [specClassify]
        | none =>
          simp only [List.map_cons, specClassify]
          by_cases h1 : 1 - 2 * weight < 0.25
          · rw [if_pos h1, if_pos h1]
          · rw [if_neg h1, if_neg h1]
            by_cases h2 : 1 - 2 * weight > 0.75
            · rw [if_pos h2, if_neg (by linarith)]
            · rw [if_neg h2, if_pos (by linarith)]

/-- When every child evaluates to missing and every child weight has
`1 - 2w > 0.75`, the loop drops everything: no scores and no weights
survive. -/
lemma gatherChildren_all_dropped :
    ∀ (pairs : List (TreeNode × ℝ)) (inputs : Inputs),
      (∀ p ∈ pairs, evalNode p.1 inputs = .ok none ∧ 1 - 2 * p.2 > 0.75) →
      gatherChildren pairs inputs = .ok ([], [])
  | [], inputs, _ => by simp [gatherChildren]
  | (child, weight) :: rest, inputs, h => by
    obtain ⟨hcv, hwt⟩ := h (child, weight) (by simp)
    rw [gatherChildren]
    simp only [Bind.bind, Except.bind, hcv,
      gatherChildren_all_dropped rest inputs (fun p hp => h p (by simp [hp]))]
    rw [if_neg (by linarith), if_pos hwt]

lemma complement_mem_bounds (values : List ℝ) (hv : ∀ v ∈ values, 0 ≤ v ∧ v ≤ 1) :
    ∀ v ∈ values.map (fun v => 1 - v), 0 ≤ v ∧ v ≤ 1 := by
  intro v hvm
  simp only [List.mem_map] at hvm
  obtain ⟨x, hx, rfl⟩ := hvm
  obtain ⟨hx0, hx1⟩ := hv x hx
  constructor <;> linarith

/-! ### Claim theorems -/

/-- C2: for every andness alpha in [0, 0.5), every list of scores in [0,1]
and every weight vector summing to 1, evaluation satisfies
evaluate(alpha, scores, weights) = 1 − evaluate(1−alpha, [1−s for s in scores], weights);
the two sides are identical by construction because the alpha < 0.5 case is
implemented as that recursive call. -/
theorem C2_complementation (alpha : ℝ) (values weights : List ℝ)
    (h0 : 0 ≤ alpha) (h05 : alpha < 0.5)
    (_hv : ∀ v ∈ values, 0 ≤ v ∧ v ≤ 1) (hsum : weights.sum = 1) :
    ∃ y, ugcd (1 - alpha) (values.map (fun s => 1 - s)) weights = .ok y ∧
      ugcd alpha values weights = .ok (1 - y) := by
  have hclose := npIsClose_of_sum_one hsum
  obtain ⟨y, hy⟩ := ugcd_high_ok (1 - alpha) (values.map (fun s => 1 - s)) weights
    hclose (by linarith) (by linarith)
  refine ⟨y, hy, ?_⟩
  rw [ugcd]
  rw [if_neg (by simpa using hclose), if_neg (by intro he; rw [he] at h05; norm_num at h05),
    if_neg (by rintro ⟨h75, _⟩; linarith), if_neg (by rintro ⟨hhalf, _⟩; linarith),
    if_pos ⟨h0, h05⟩, hy]

/-- C2 witness: the complementation identity at the concrete input
alpha = 0.25, scores [0.3], weights [1]. -/
theorem C2_complementation_witness :
    ∃ y, ugcd (1 - 0.25) ([(0.3 : ℝ)].map (fun s => 1 - s)) [1] = .ok y ∧
      ugcd 0.25 [(0.3 : ℝ)] [1] = .ok (1 - y) :=
  C2_complementation 0.25 [0.3] [1] (by norm_num) (by norm_num)
    (by intro v hvm; simp only [List.mem_singleton] at hvm; subst hvm; norm_num)
    (by simp)

/-- C6: for every nonempty list of scores in [0,1], every positive weight
vector of the same length summing to 1 (the attachment weights of the tree
are in (0,1]), and every andness alpha in [0,1], evaluation returns a score
in [0,1]. -/
theorem C6_result_in_unit (alpha : ℝ) (values weights : List ℝ)
    (hne : values ≠ []) (hlen : weights.length = values.length)
    (hv : ∀ v ∈ values, 0 ≤ v ∧ v ≤ 1) (hw : ∀ w ∈ weights, 0 < w)
    (hsum : weights.sum = 1) (h0 : 0 ≤ alpha) (h1 : alpha ≤ 1) :
    ∃ y, ugcd alpha values weights = .ok y ∧ 0 ≤ y ∧ y ≤ 1 := by
  have hw0 : ∀ w ∈ weights, 0 ≤ w := fun w hmem => (hw w hmem).le
  rcases le_or_lt 0.5 alpha with h05 | h05
  · exact ugcd_high_bounds alpha values weights h05 h1 hne hlen hv hw0 hsum
  · obtain ⟨y, hy, hy0, hy1⟩ := ugcd_high_bounds (1 - alpha)
      (values.map (fun v => 1 - v)) weights (by linarith) (by linarith)
      (by simpa using hne) (by simpa using hlen)
      (complement_mem_bounds values hv) hw0 hsum
    refine ⟨1 - y, ?_, by linarith, by linarith⟩
    rw [ugcd]
    rw [if_neg (by simpa using npIsClose_of_sum_one hsum),
      if_neg (by intro he; rw [he] at h05; norm_num at h05),
      if_neg (by rintro ⟨h75, _⟩; linarith), if_neg (by rintro ⟨hhalf, _⟩; linarith),
      if_pos ⟨h0, h05⟩, hy]

/-- C6 witness: the unit-interval containment at the concrete input
alpha = 1, scores [0.5], weights [1]. -/
theorem C6_result_in_unit_witness :
    ∃ y, ugcd 1 [(0.5 : ℝ)] [1] = .ok y ∧ 0 ≤ y ∧ y ≤ 1 :=
  C6_result_in_unit 1 [0.5] [1] (by simp) (by simp)
    (by intro v hvm; simp only [List.mem_singleton] at hvm; subst hvm; norm_num)
    (by intro w hwm; simp only [List.mem_singleton] at hwm; subst hwm; norm_num)
    (by simp) (by norm_num) (by norm_num)

/-- C7: for every nonempty list of scores in [0,1] and every weight vector
summing to 1, evaluation with andness alpha = 0 returns max(scores),
independently of the weights, via the complementation identity applied to
the alpha = 1 min branch. -/
theorem C7_alpha_zero_max (values weights : List ℝ) (hne : values ≠ [])
    (_hv : ∀ v ∈ values, 0 ≤ v ∧ v ≤ 1) (hsum : weights.sum = 1) :
    ugcd 0 values weights = .ok (listMax values) := by
  have hclose := npIsClose_of_sum_one hsum
  rw [ugcd]
  rw [if_neg (by simpa using hclose), if_neg (by norm_num), if_neg (by norm_num),
    if_neg (by norm_num), if_pos (by norm_num)]
  rw [ugcd]
  rw [if_neg (by simpa using hclose), if_pos (by norm_num)]
  rw [listMin_map_complement values hne]
  ring_nf

/-- C7 witness: the max property at the concrete input scores [0.2, 0.7],
weights [0.5, 0.5]. -/
theorem C7_alpha_zero_max_witness :
    ugcd 0 [(0.2 : ℝ), 0.7] [0.5, 0.5] = .ok (listMax [(0.2 : ℝ), 0.7]) :=
  C7_alpha_zero_max [0.2, 0.7] [0.5, 0.5] (by simp)
    (by
      intro v hvm
      simp at hvm
      rcases hvm with h | h <;> subst h <;> norm_num)
    (by norm_num [List.sum_cons, List.sum_nil])

/-- C8: for every list of scores in [0,1] and every weight vector summing
to 1, evaluation with andness alpha = 0.5 returns exactly the weighted
arithmetic mean, because the power-mean coefficient (4·alpha − 2) vanishes
in the 0.5 ≤ alpha < 0.75 branch at alpha = 0.5. -/
theorem C8_alpha_half_mean (values weights : List ℝ)
    (_hv : ∀ v ∈ values, 0 ≤ v ∧ v ≤ 1) (hsum : weights.sum = 1) :
    ugcd 0.5 values weights = .ok (weightedSum values weights) := by
  rw [ugcd]
  rw [if_neg (by simpa using npIsClose_of_sum_one hsum), if_neg (by norm_num),
    if_neg (by norm_num), if_pos (by norm_num)]
  congr 1
  norm_num

/-- C8 witness: the weighted-mean property at the concrete input
scores [0.4, 0.9], weights [0.25, 0.75]. -/
theorem C8_alpha_half_mean_witness :
    ugcd 0.5 [(0.4 : ℝ), 0.9] [0.25, 0.75]
      = .ok (weightedSum [(0.4 : ℝ), 0.9] [0.25, 0.75]) :=
  C8_alpha_half_mean [0.4, 0.9] [0.25, 0.75]
    (by
      intro v hvm
      simp at hvm
      rcases hvm with h | h <;> subst h <;> norm_num)
    (by norm_num [List.sum_cons, List.sum_nil])

/-- C5: evaluating a partial-absorption aggregator at its singular
boundary — mandatory score x = 0 for the conjunctive variant, x = 1 for
the disjunctive variant — raises the division-by-zero error for every
choice of mixing coefficients and desired score, rather than silently
returning a value. -/
theorem C5_singular_boundary_error (W1 W2 y W1d W2d yd : ℝ) :
    cpaEvaluate W1 W2 0 y = .error "ZeroDivisionError: float division by zero" ∧
    dpaEvaluate W1d W2d 1 yd = .error "ZeroDivisionError: float division by zero" := by
  constructor
  · by_cases h : W1 * 0 + (1 - W1) * y = 0
    · simp only [cpaEvaluate, pydiv, Bind.bind, Except.bind]
      rw [if_pos h]
    · simp only [cpaEvaluate, pydiv, Bind.bind, Except.bind]
      rw [if_neg h, if_pos (trivial : True)]
  · by_cases h : 1 - W1d * 1 - (1 - W1d) * yd = 0
    · simp only [dpaEvaluate, pydiv, Bind.bind, Except.bind]
      rw [if_pos h]
    · simp only [dpaEvaluate, pydiv, Bind.bind, Except.bind]
      rw [if_neg h, if_pos (show (1 : ℝ) - 1 = 0 by norm_num)]

/-- C3 (code bug): attaching a child to a leaf node does not raise. The
source guard is `assert not isinstance(self, ElementaryCriterion)`, but
`self` is the `AggregationTreeNode` object itself — never an
`ElementaryCriterion` — so the assertion is vacuous and the child is
attached, leaving a leaf with one child. -/
theorem C3_leaf_attach_succeeds :
    addChild (.mk (.criterion "Road Surface Quality" (fun v => v)) [])
        (.criterion "Suitability of Neighborhood" (fun v => v)) 0.6
      = .ok (.mk (.criterion "Road Surface Quality" (fun v => v))
          [(.mk (.criterion "Suitability of Neighborhood" (fun v => v)) [], 0.6)]) := rfl

/-- C4 (counterexample): a leaf whose criterion name is absent from the
inputs mapping raises `KeyError` instead of returning the missing result. -/
theorem C4_absent_name_raises :
    evalNode (.mk (.criterion "Distance from public transport" (fun v => v)) [])
        (fun _ => none) = .error "KeyError: Distance from public transport" ∧
    evalNode (.mk (.criterion "Distance from public transport" (fun v => v)) [])
        (fun _ => none) ≠ .ok none := by
  constructor
  · simp [evalNode]
  · simp [evalNode]

/-- C4 (amended): leaf evaluation returns the missing result exactly when
the value stored under the criterion name is marked missing (NaN); an
absent name raises `KeyError` instead of returning missing; a present,
non-missing value is delegated to the Criterion's scoring function. -/
theorem C4_leaf_eval_cases (name : String) (score : ℝ → ℝ)
    (children : List (TreeNode × ℝ)) (inputs : Inputs) :
    (inputs name = none →
      evalNode (.mk (.criterion name score) children) inputs
        = .error ("KeyError: " ++ name)) ∧
    (inputs name = some none →
      evalNode (.mk (.criterion name score) children) inputs = .ok none) ∧
    (∀ v, inputs name = some (some v) →
      evalNode (.mk (.criterion name score) children) inputs
        = .ok (some (score v))) := by
  refine ⟨fun h => ?_, fun h => ?_, fun v h => ?_⟩ <;> rw [evalNode, h]

/-- C4 witness: the amended leaf-evaluation cases applied at a concrete
leaf and a concrete NaN input. -/
theorem C4_leaf_eval_cases_witness :
    evalNode (.mk (.criterion "a" (fun v => v)) []) (fun _ => some none) = .ok none :=
  (C4_leaf_eval_cases "a" (fun v => v) [] (fun _ => some none)).2.1 rfl

/-- C1: for every internal node, evaluation classifies each missing child by
`calculated = 1 − 2w` (substitute 0 below 0.25, neutral placeholder on
[0.25, 0.75], exclusion above 0.75), replaces placeholders once per node by
the arithmetic mean of the non-placeholder scores (0 when none exist),
renormalizes the surviving weights by dividing each by their sum, and only
then invokes the node's aggregator on the final (score, weight) pairs. -/
theorem C1_missingness_policy (f : List ℝ → List ℝ → Except String ℝ)
    (pairs : List (TreeNode × ℝ)) (inputs : Inputs) (results : List (Option ℝ))
    (h : childResults pairs inputs = .ok results) :
    evalNode (.mk (.aggregator f) pairs) inputs =
      match f (specSubstitute (specClassify results (pairs.map Prod.snd)).1)
          (specNormalize (specClassify results (pairs.map Prod.snd)).2) with
      | .ok r => .ok (some r)
      | .error e => .error e := by
  rw [evalNode, gatherChildren_eq_spec, h]
  simp only [Bind.bind, Except.bind]
  rw [substituteNeutral_eq_spec, normalizeWeights_eq_spec]

/-- C1 witness: the policy equation at a concrete two-child node — one
neutral-tolerance missing child (weight 0.3) and one resolved child. -/
theorem C1_missingness_policy_witness :
    childResults [(.mk (.criterion "a" (fun v => v)) [], 0.3),
        (.mk (.criterion "b" (fun v => v)) [], 0.7)]
        (fun n => if n = "b" then some (some 0.6) else some none)
      = .ok [none, some 0.6] ∧
    evalNode (.mk (.aggregator (fun values weights => ugcd 0.5 values weights))
        [(.mk (.criterion "a" (fun v => v)) [], 0.3),
         (.mk (.criterion "b" (fun v => v)) [], 0.7)])
        (fun n => if n = "b" then some (some 0.6) else some none)
      = match ugcd 0.5
            (specSubstitute (specClassify [none, some 0.6] [0.3, 0.7]).1)
            (specNormalize (specClassify [none, some 0.6] [0.3, 0.7]).2) with
        | .ok r => .ok (some r)
        | .error e => .error e := by
  have h : childResults [(.mk (.criterion "a" (fun v => v)) [], 0.3),
      (.mk (.criterion "b" (fun v => v)) [], 0.7)]
      (fun n => if n = "b" then some (some 0.6) else some none)
      = .ok [none, some 0.6] := by
    simp [childResults, evalNode, Bind.bind, Except.bind]
  exact ⟨h, C1_missingness_policy _ _ _ _ h⟩

/-- C9: when every child of an internal node evaluates to missing with
tolerance 1 (`1 − 2w > 0.75`), the loop drops all children, the UGCD
aggregator is invoked on empty score and weight lists, and its
weights-must-sum-to-1 assertion fails: the call raises that error instead
of returning the missing result. -/
theorem C9_all_dropped_error (andness : ℝ) (pairs : List (TreeNode × ℝ))
    (inputs : Inputs)
    (h : ∀ p ∈ pairs, evalNode p.1 inputs = .ok none ∧ 1 - 2 * p.2 > 0.75) :
    evalNode (.mk (ugcdAggregator andness) pairs) inputs
      = .error "Weights must sum to 1." := by
  rw [ugcdAggregator, evalNode, gatherChildren_all_dropped pairs inputs h]
  simp only [Bind.bind, Except.bind]
  rw [substituteNeutral_nil, normalizeWeights_nil, ugcd_empty]

/-- C9 witness: a single missing child with weight 0.1 (tolerance
`1 − 0.2 = 0.8 > 0.75`) makes the node error out. -/
theorem C9_all_dropped_error_witness :
    evalNode (.mk (ugcdAggregator 0.5) [(.mk (.criterion "a" (fun v => v)) [], 0.1)])
        (fun _ => some none) = .error "Weights must sum to 1." :=
  C9_all_dropped_error 0.5 _ _ (by
    intro p hp
    simp only [List.mem_singleton] at hp
    subst hp
    exact ⟨by simp [evalNode], by norm_num⟩)

/-- C10: when an internal node has a tolerance-0 missing child (score
substituted with 0), a tolerance-0.5 missing child and a resolved child
with score s, the value substituted for the tolerance-0.5 placeholder is
the mean of the non-placeholder entries including the substituted 0 —
`(0 + s) / 2` — not the mean `s` of the children that actually resolved. -/
theorem C10_mean_includes_zero (f : List ℝ → List ℝ → Except String ℝ)
    (a b c : TreeNode) (wa wb wc s : ℝ) (inputs : Inputs)
    (ha : evalNode a inputs = .ok none) (hb : evalNode b inputs = .ok none)
    (hc : evalNode c inputs = .ok (some s))
    (hwa : 1 - 2 * wa < 0.25)
    (hwb1 : ¬ (1 - 2 * wb < 0.25)) (hwb2 : ¬ (1 - 2 * wb > 0.75)) :
    evalNode (.mk (.aggregator f) [(a, wa), (b, wb), (c, wc)]) inputs =
      match f [0, (0 + s) / 2, s]
          [wa / (wa + wb + wc), wb / (wa + wb + wc), wc / (wa + wb + wc)] with
      | .ok r => .ok (some r)
      | .error e => .error e := by
  rw [evalNode]
  have h3 : gatherChildren [(c, wc)] inputs = .ok ([some s], [wc]) := by
    rw [gatherChildren, gatherChildren]
    simp only [hc, Bind.bind, Except.bind]
  have h2 : gatherChildren [(b, wb), (c, wc)] inputs
      = .ok ([none, some s], [wb, wc]) := by
    rw [gatherChildren, h3]
    simp only [hb, Bind.bind, Except.bind]
    rw [if_neg hwb1, if_neg hwb2]
  have hg : gatherChildren [(a, wa), (b, wb), (c, wc)] inputs
      = .ok ([some 0, none, some s], [wa, wb, wc]) := by
    rw [gatherChildren, h2]
    simp only [ha, Bind.bind, Except.bind]
    rw [if_pos hwa]
  rw [hg]
  simp only [Bind.bind, Except.bind]
  have hsub : substituteNeutral [some 0, none, some s] = [0, (0 + s) / 2, s] := by
    simp [substituteNeutral, hasNone]
  have hnorm : normalizeWeights [wa, wb, wc]
      = [wa / (wa + wb + wc), wb / (wa + wb + wc), wc / (wa + wb + wc)] := by
    rw [normalizeWeights_eq_spec]
    simp only [specNormalize, List.map_cons, List.map_nil, List.sum_cons, List.sum_nil]
    have hs : wa + (wb + (wc + 0)) = wa + wb + wc := by ring
    rw [hs]
  rw [hsub, hnorm]

/-- C10 witness: the inclusive-mean substitution at a concrete three-child
node with weights 0.45, 0.3, 0.25 and resolved score 0.8. -/
theorem C10_mean_includes_zero_witness :
    evalNode (.mk (.aggregator (fun values weights => ugcd 0.5 values weights))
        [(.mk (.criterion "a" (fun v => v)) [], 0.45),
         (.mk (.criterion "b" (fun v => v)) [], 0.3),
         (.mk (.criterion "c" (fun v => v)) [], 0.25)])
        (fun n => if n = "c" then some (some 0.8) else some none) =
      match ugcd 0.5 [0, (0 + 0.8) / 2, 0.8]
          [0.45 / (0.45 + 0.3 + 0.25), 0.3 / (0.45 + 0.3 + 0.25),
           0.25 / (0.45 + 0.3 + 0.25)] with
      | .ok r => .ok (some r)
      | .error e => .error e :=
  C10_mean_includes_zero _ _ _ _ 0.45 0.3 0.25 0.8 _
    (by simp [evalNode]) (by simp [evalNode]) (by simp [evalNode])
    (by norm_num) (by norm_num) (by norm_num)

end LSPHome
